import Mathlib

/-!
A shallow embedding of `CopyOnWrite<T>` (src/copy_on_write.hpp) and proofs about it.

The container keeps one reference-counted snapshot (`Internal`: an atomic
refcount plus the payload) reachable through a packed 64-bit word
(`addressAndCopyCounter`): 48 address bits plus a 16-bit count of readers
currently mid-acquisition.  We model the heap of `Internal` objects as a
function from (abstract) addresses to optional records, and the packed word as
its two components `slotAddr`/`slotCount`.  All sequential operations are
transcribed from the source; machine pointers become `Nat` addresses handed
out by a monotone allocation counter `nextAddr` (a fresh `new` never returns
an address that is still live, which the freshness hypotheses below record).
-/

namespace CopyOnWriteModel

/-- Pointwise update of a partial function from addresses. -/
def upd {α : Type} (f : Nat → Option α) (a : Nat) (v : Option α) : Nat → Option α :=
  fun b => if b = a then v else f b

/-- `Internal` from the source: an (atomic) strong-reference count plus the
payload `instance`.  The `Internal(Args&&...)` constructor initialises the
count to 1. -/
structure Internal (T : Type) where
  refcount : Nat
  inst : T

/-- The heap of `Internal` objects: `none` means unallocated / deleted. -/
abbrev Heap (T : Type) := Nat → Option (Internal T)

/-- The container state: the heap, the two components of the packed word
`addressAndCopyCounter` (48 address bits = `slotAddr`, upper 16 bits =
`slotCount`), the `previousCopyCounter`, whether `editMutex` is held, and the
allocation counter that hands out fresh addresses. -/
structure State (T : Type) where
  heap : Heap T
  slotAddr : Nat
  slotCount : Nat
  previousCopyCounter : Int
  lockHeld : Bool
  nextAddr : Nat

/-- `getRidOfPointer`: decrement the refcount; when it reaches zero, `delete`
the object.  The returned flag records whether a deallocation happened.
(Calling it on a dangling address is undefined behaviour in the source; the
`none` branch is never reached from well-formed states.) -/
def getRidOfPointer {T : Type} (h : Heap T) (a : Nat) : Heap T × Bool :=
  match h a with
  | none => (h, false)
  | some it =>
    if it.refcount - 1 = 0 then (upd h a none, true)
    else (upd h a (some ⟨it.refcount - 1, it.inst⟩), false)

/-- `obtained->refcount++` on a live address (no-op on a dangling address,
which is undefined behaviour in the source and unreachable here). -/
def incRef {T : Type} (h : Heap T) (a : Nat) : Heap T :=
  match h a with
  | none => h
  | some it => upd h a (some ⟨it.refcount + 1, it.inst⟩)

/-- `safeInstance`: increment the packed word's reader counter, increment the
observed object's refcount, then decrement the reader counter again.  Run
without interference (the sequential semantics) the two counter updates
cancel, leaving a net `refcount++` on the snapshot the slot points to; the
function returns that address. -/
def safeInstance {T : Type} (s : State T) : Nat × State T :=
  (s.slotAddr, { s with heap := incRef s.heap s.slotAddr })

/-- `replace` (must be called with `editMutex` held): read the current
snapshot, evaluate the verifier on its payload and return `false` untouched on
rejection; otherwise build the replacement (`creator` receives the old
payload), `exchange` the packed word for `{new address, reader count 0}`, add
the abandoned reader count of the old word to `previousCopyCounter`, busy-wait
for it to drain to zero (a no-op in sequential states, where both counters are
zero), release the slot's reference on the old snapshot and return `true`.
The replacement is allocated at the fresh address `nextAddr` with refcount 1. -/
def replace {T : Type} (creator : T → T) (verifier : T → Bool) (s : State T) :
    Bool × State T :=
  match s.heap s.slotAddr with
  | none => (false, s)
  | some original =>
    if verifier original.inst then
      let a := s.nextAddr
      let h1 := upd s.heap a (some ⟨1, creator original.inst⟩)
      let g := getRidOfPointer h1 s.slotAddr
      (true, { heap := g.1, slotAddr := a, slotCount := 0,
               previousCopyCounter := s.previousCopyCounter + (s.slotCount : Int),
               lockHeld := s.lockHeld, nextAddr := a + 1 })
    else (false, s)

/-- `replaceWithModifiedCopy`: copy the current payload, apply the modifier to
the copy, publish via `replace`.  For a value payload, copy-then-mutate is
exactly `modifier old`. -/
def replaceWithModifiedCopy {T : Type} (modifier : T → T) (verifier : T → Bool)
    (s : State T) : Bool × State T :=
  replace (fun old => modifier old) verifier s

/-- `replaceWithNew`: construct the payload from the constructor arguments
(already evaluated to the value `v`), apply the modifier, publish via
`replace`; the creator ignores the old payload. -/
def replaceWithNew {T : Type} (modifier : T → T) (verifier : T → Bool) (v : T)
    (s : State T) : Bool × State T :=
  replace (fun _ => modifier v) verifier s

/-- `emplace`: blocking lock, then `replace` with a creator that constructs the
payload from the arguments and the always-passing verifier. -/
def emplace {T : Type} (v : T) (s : State T) : Bool × State T :=
  replace (fun _ => v) (fun _ => true) s

/-- `reset`: blocking lock, then `replaceWithNew`. -/
def reset {T : Type} (modifier : T → T) (verifier : T → Bool) (v : T)
    (s : State T) : Bool × State T :=
  replaceWithNew modifier verifier v s

/-- `tryReset`: `try_to_lock`; on contention return `false` with no effect. -/
def tryReset {T : Type} (modifier : T → T) (verifier : T → Bool) (v : T)
    (s : State T) : Bool × State T :=
  if s.lockHeld then (false, s) else replaceWithNew modifier verifier v s

/-- `edit`: blocking lock, then `replaceWithModifiedCopy`. -/
def edit {T : Type} (modifier : T → T) (verifier : T → Bool) (s : State T) :
    Bool × State T :=
  replaceWithModifiedCopy modifier verifier s

/-- `tryEdit`: `try_to_lock`; on contention return `false` with no effect. -/
def tryEdit {T : Type} (modifier : T → T) (verifier : T → Bool) (s : State T) :
    Bool × State T :=
  if s.lockHeld then (false, s) else replaceWithModifiedCopy modifier verifier s

/-- `get`: hand out a handle bound to the current snapshot via `safeInstance`. -/
def get {T : Type} (s : State T) : Nat × State T :=
  safeInstance s

/-- The payload currently published through the slot. -/
def currentPayload {T : Type} (s : State T) : Option T :=
  (s.heap s.slotAddr).map Internal.inst

/-- `replace` as instantiated through `replaceWithModifiedCopy` /
`replaceWithNew`, with the fallible steps made explicit.  `firstStage` is the
construction of the payload inside `new Internal(...)` (the copy constructor
for `edit`, the `T(args...)` constructor for `reset`/`emplace`): if it throws,
the `new`-expression frees its storage and nothing was allocated.  On success
the draft `Internal` (refcount 1) sits at the fresh address inside a
`DuplicateHolder`; if `modifier` then throws, the holder's destructor deletes
the draft and the exception propagates with no publish.  Only when both
succeed does `take()` hand the draft to the `exchange`. -/
def replaceE {T E : Type} (firstStage : T → Except E T) (modifier : T → Except E T)
    (verifier : T → Bool) (s : State T) : Except E Bool × State T :=
  match s.heap s.slotAddr with
  | none => (.ok false, s)
  | some original =>
    if verifier original.inst then
      match firstStage original.inst with
      | .error e => (.error e, s)
      | .ok c =>
        let a := s.nextAddr
        let h1 := upd s.heap a (some ⟨1, c⟩)
        match modifier c with
        | .error e => (.error e, { s with heap := upd h1 a none, nextAddr := a + 1 })
        | .ok c2 =>
          let h2 := upd h1 a (some ⟨1, c2⟩)
          let g := getRidOfPointer h2 s.slotAddr
          (.ok true, { heap := g.1, slotAddr := a, slotCount := 0,
                       previousCopyCounter := s.previousCopyCounter + (s.slotCount : Int),
                       lockHeld := s.lockHeld, nextAddr := a + 1 })
    else (.ok false, s)

/-- `~CopyOnWrite`: take one reference to the final snapshot via
`safeInstance`, then release it twice with `getRidOfPointer`.  Returns the
final heap and, for each of the two releases, whether it deallocated. -/
def destructor {T : Type} (s : State T) : Heap T × Bool × Bool :=
  let r := safeInstance s
  let g1 := getRidOfPointer r.2.heap r.1
  let g2 := getRidOfPointer g1.1 r.1
  (g2.1, g1.2, g2.2)

/-- The copy constructor of `CopyOnWriteStateReference`: it copies the pointer
and executes `instance->refcount++` with no null check, so copying an empty
handle dereferences a null pointer — modelled as the fault value `none`.
(Incrementing through a dangling pointer is likewise a fault.) -/
def copyCtor {T : Type} (other : Option Nat) (h : Heap T) :
    Option (Option Nat × Heap T) :=
  match other with
  | none => none
  | some a =>
    match h a with
    | none => none
    | some it => some (some a, upd h a (some ⟨it.refcount + 1, it.inst⟩))

/-- The move constructor: `if (other.instance)` take the pointer and null the
source; an empty source stays empty.  The heap (and so every refcount) is
untouched — the constructor performs no counter operation at all.  Returns
(new handle, what is left in the source). -/
def moveCtor (other : Option Nat) : Option Nat × Option Nat :=
  match other with
  | none => (none, none)
  | some a => (some a, none)

/-- The handle destructor: `if (instance) getRidOfPointer(instance)`.  Returns
the heap and whether the bound snapshot was deallocated. -/
def handleDtor {T : Type} (inst : Option Nat) (h : Heap T) : Heap T × Bool :=
  match inst with
  | none => (h, false)
  | some a => getRidOfPointer h a

/-- One mutating public operation, with its caller-supplied modifier,
verifier and (where applicable) constructor arguments. -/
inductive MutOp (T : Type) where
  | emplaceM (v : T)
  | resetM (m : T → T) (ver : T → Bool) (v : T)
  | tryResetM (m : T → T) (ver : T → Bool) (v : T)
  | editM (m : T → T) (ver : T → Bool)
  | tryEditM (m : T → T) (ver : T → Bool)

/-- Run one mutating operation. -/
def MutOp.apply {T : Type} : MutOp T → State T → Bool × State T
  | .emplaceM v, s => emplace v s
  | .resetM m ver v, s => reset m ver v s
  | .tryResetM m ver v, s => tryReset m ver v s
  | .editM m ver, s => edit m ver s
  | .tryEditM m ver, s => tryEdit m ver s

/-- Run a sequence of mutating operations, discarding the booleans. -/
def runMuts {T : Type} : List (MutOp T) → State T → State T
  | [], s => s
  | o :: os, s => runMuts os (o.apply s).2

/-- Container plus the multiset of live, non-empty handles (each entry is the
address of the snapshot that handle is bound to).  A handle emptied by a move
holds no reference and so does not appear. -/
structure Sys (T : Type) where
  st : State T
  handles : List Nat

/-- A public operation on the container or on one of its handles.  `copyO a` /
`dropO a` copy-construct from, or destroy, one live handle bound to address
`a`; `moveO` transfers ownership between handle variables, which touches no
refcount and leaves the multiset of bound handles unchanged. -/
inductive Op (T : Type) where
  | getO
  | mutO (o : MutOp T)
  | copyO (a : Nat)
  | moveO
  | dropO (a : Nat)

/-- Step the whole system by one operation. -/
def Op.step {T : Type} : Op T → Sys T → Sys T
  | .getO, σ =>
    let r := safeInstance σ.st
    ⟨r.2, r.1 :: σ.handles⟩
  | .mutO o, σ => ⟨(o.apply σ.st).2, σ.handles⟩
  | .copyO a, σ =>
    if a ∈ σ.handles then ⟨{ σ.st with heap := incRef σ.st.heap a }, a :: σ.handles⟩
    else σ
  | .moveO, σ => σ
  | .dropO a, σ =>
    if a ∈ σ.handles then
      ⟨{ σ.st with heap := (getRidOfPointer σ.st.heap a).1 }, σ.handles.erase a⟩
    else σ

/-- Run a sequence of public operations. -/
def runOps {T : Type} : List (Op T) → Sys T → Sys T
  | [], σ => σ
  | o :: os, σ => runOps os (o.step σ)

/-- The container constructor: one snapshot with refcount 1 at address 0, the
packed word pointing at it with reader count 0, no handles. -/
def initSys {T : Type} (v : T) : Sys T :=
  ⟨{ heap := upd (fun _ => none) 0 (some ⟨1, v⟩), slotAddr := 0, slotCount := 0,
     previousCopyCounter := 0, lockHeld := false, nextAddr := 1 }, []⟩

/-- The refcount bookkeeping invariant (claim C9): every live snapshot's
strong count equals the number of live handles bound to it, plus one exactly
when the slot currently holds it; that count is strictly positive (a snapshot
is only deallocated when it reaches zero); a deallocated address has no
handle bound to it and is not the slot; and no address at or above the
allocation counter is live. -/
def SysInv {T : Type} (σ : Sys T) : Prop :=
  (∀ b, σ.st.nextAddr ≤ b → σ.st.heap b = none) ∧
  σ.st.slotAddr < σ.st.nextAddr ∧
  (∀ a it, σ.st.heap a = some it →
      it.refcount = σ.handles.count a + (if σ.st.slotAddr = a then 1 else 0) ∧
      1 ≤ it.refcount) ∧
  (∀ a, σ.st.heap a = none → a ∉ σ.handles ∧ σ.st.slotAddr ≠ a)

/-- The payload-tracking invariant behind claim C4: the state is well formed
(fresh addresses are dead, the slot is live) and address `a` holds a snapshot
with payload `p` whose refcount covers the outstanding handle (and, when the
slot still points at `a`, the slot's own reference too). -/
def Tracks {T : Type} (s : State T) (a : Nat) (p : T) : Prop :=
  (∀ b, s.nextAddr ≤ b → s.heap b = none) ∧
  (∃ it, s.heap s.slotAddr = some it) ∧
  (∃ rc, s.heap a = some ⟨rc, p⟩ ∧ (if s.slotAddr = a then 2 else 1) ≤ rc)

end CopyOnWriteModel

/-!
An interleaving model of the publish protocol for claim C3.  The payload is a
pair of fields that the writer fills in one at a time while building a fresh
snapshot, so that a torn read would be observable; the `exchange` that makes
the new snapshot current is a single atomic step, and a reader's acquisition
of the current address (the first compare-exchange loop of `safeInstance`) is
likewise a single atomic load of the packed word.  `hist` is the ghost list of
payloads whose publication was ever begun (the initial payload included): a
consistent handle must show both fields of one entry of `hist`, never fields
of two different entries and never a missing field.
-/

namespace PublishModel

/-- The two-field payload. -/
abbrev Payload := Nat × Nat

/-- A snapshot under construction: each field is separately either unwritten
or written. -/
abbrev Draft := Option Nat × Option Nat

/-- The writer's program counter inside `replace`: idle, or building the
snapshot for payload `v` at address `ad` (allocated blank / first field
written / fully built and about to exchange). -/
inductive WriterPC where
  | idle
  | allocated (ad : Nat) (v : Payload)
  | wroteA (ad : Nat) (v : Payload)
  | built (ad : Nat) (v : Payload)

/-- A reader thread: not yet started, or finished holding the address it
atomically loaded from the slot. -/
inductive ReaderSt where
  | start
  | done (ad : Nat)

/-- A configuration of the interleaved system. -/
structure Config where
  store : Nat → Option Draft
  slot : Nat
  nextAddr : Nat
  writer : WriterPC
  readers : List ReaderSt
  hist : List Payload

/-- One interleaving step: the four writer steps of build-and-publish, and a
reader's atomic load of the slot. -/
inductive Step : Config → Config → Prop where
  | start (c : Config) (v : Payload) (h : c.writer = .idle) :
      Step c { c with store := CopyOnWriteModel.upd c.store c.nextAddr (some (none, none)),
                      nextAddr := c.nextAddr + 1,
                      writer := .allocated c.nextAddr v,
                      hist := v :: c.hist }
  | writeA (c : Config) (ad : Nat) (v : Payload) (h : c.writer = .allocated ad v) :
      Step c { c with store := CopyOnWriteModel.upd c.store ad (some (some v.1, none)),
                      writer := .wroteA ad v }
  | writeB (c : Config) (ad : Nat) (v : Payload) (h : c.writer = .wroteA ad v) :
      Step c { c with store := CopyOnWriteModel.upd c.store ad (some (some v.1, some v.2)),
                      writer := .built ad v }
  | publish (c : Config) (ad : Nat) (v : Payload) (h : c.writer = .built ad v) :
      Step c { c with slot := ad, writer := .idle }
  | load (c : Config) (i : Nat) (h : c.readers.get? i = some .start) :
      Step c { c with readers := c.readers.set i (.done c.slot) }

/-- The initial configuration: one fully built snapshot holding `v0` at
address 0, `k` readers about to start. -/
def init (v0 : Payload) (k : Nat) : Config :=
  { store := CopyOnWriteModel.upd (fun _ => none) 0 (some (some v0.1, some v0.2)),
    slot := 0, nextAddr := 1, writer := .idle,
    readers := List.replicate k .start, hist := [v0] }

/-- Reachability from the initial configuration. -/
inductive Reach (v0 : Payload) (k : Nat) : Config → Prop where
  | init : Reach v0 k (init v0 k)
  | step {c c' : Config} : Reach v0 k c → Step c c' → Reach v0 k c'

/-- Address `a` holds a complete snapshot of one published payload. -/
def committed (c : Config) (a : Nat) : Prop :=
  ∃ p ∈ c.hist, c.store a = some (some p.1, some p.2)

/-- The writer's in-progress draft matches its program counter, sits below the
allocation bound, and builds a payload recorded in `hist`. -/
def writerOK (c : Config) : Prop :=
  match c.writer with
  | .idle => True
  | .allocated ad v => ad < c.nextAddr ∧ c.store ad = some (none, none) ∧ v ∈ c.hist
  | .wroteA ad v => ad < c.nextAddr ∧ c.store ad = some (some v.1, none) ∧ v ∈ c.hist
  | .built ad v => ad < c.nextAddr ∧ c.store ad = some (some v.1, some v.2) ∧ v ∈ c.hist

/-- The inductive invariant: fresh addresses are unallocated, the slot and
every address held by a finished reader are committed, and the writer's draft
is in shape. -/
def Inv (c : Config) : Prop :=
  (∀ b, c.nextAddr ≤ b → c.store b = none) ∧
  committed c c.slot ∧
  (∀ i ad, c.readers.get? i = some (.done ad) → committed c ad) ∧
  writerOK c

/-- A concrete configuration used to instantiate the reachability theorems:
initial payload `(3, 4)`, one reader. -/
def wInit : Config := init (3, 4) 1

/-- The configuration after that reader's atomic load of the slot. -/
def wLoaded : Config := { wInit with readers := wInit.readers.set 0 (.done wInit.slot) }

end PublishModel

namespace CopyOnWriteModel

/-- A concrete one-snapshot heap over payload type `Nat`: address 0 holds the
payload 3 with refcount 1. -/
def wHeap : Heap Nat := upd (fun _ => none) 0 (some ⟨1, 3⟩)

/-- The corresponding quiescent container state. -/
def wState : State Nat :=
  { heap := wHeap, slotAddr := 0, slotCount := 0, previousCopyCounter := 0,
    lockHeld := false, nextAddr := 1 }

/-- The same state as seen from inside a write operation: `editMutex` held. -/
def wStateLocked : State Nat := { wState with lockHeld := true }

end CopyOnWriteModel

namespace CopyOnWriteModel

theorem upd_self {α : Type} (f : Nat → Option α) (a : Nat) (v : Option α) :
    upd f a v a = v := by
  simp [upd]

theorem upd_other {α : Type} (f : Nat → Option α) (a : Nat) (v : Option α) (b : Nat)
    (hb : b ≠ a) : upd f a v b = f b := by
  simp [upd, hb]

theorem getRid_other {T : Type} (h : Heap T) (a b : Nat) (hb : b ≠ a) :
    (getRidOfPointer h a).1 b = h b := by
  simp only [getRidOfPointer]
  split
  · rfl
  · split <;> simp [upd_other _ _ _ _ hb]

/-- Claim C1: `edit`/`reset` with a rejecting predicate return `false` and
leave the container state (in particular the published payload) completely
unchanged; with an accepting predicate they return `true` and the published
payload is the modifier applied exactly once to the new payload (the copy of
the old payload for `edit`, the freshly constructed value for `reset`). -/
theorem edit_reset_predicate_semantics {T : Type} (m : T → T) (ver : T → Bool) (v : T)
    (s : State T) (rc : Nat) (p : T)
    (h : s.heap s.slotAddr = some ⟨rc, p⟩) (hfresh : s.heap s.nextAddr = none) :
    (ver p = false →
      edit m ver s = (false, s) ∧ reset m ver v s = (false, s)) ∧
    (ver p = true →
      (edit m ver s).1 = true ∧ currentPayload (edit m ver s).2 = some (m p) ∧
      (reset m ver v s).1 = true ∧ currentPayload (reset m ver v s).2 = some (m v)) := by
  have hne : s.nextAddr ≠ s.slotAddr := by
    intro he
    rw [← he, hfresh] at h
    exact Option.noConfusion h
  constructor
  · intro hv
    constructor <;>
      simp [edit, reset, replaceWithModifiedCopy, replaceWithNew, replace, h, hv]
  · intro hv
    have key : ∀ c : T → T,
        (replace c ver s).1 = true ∧ currentPayload (replace c ver s).2 = some (c p) := by
      intro c
      simp only [replace, h, hv, if_true, currentPayload]
      refine ⟨trivial, ?_⟩
      rw [getRid_other _ _ _ hne, upd_self]
      rfl
    exact ⟨(key _).1, (key _).2, (key _).1, (key _).2⟩

theorem edit_reset_predicate_semantics_witness :
    (edit (fun x => x + 1) (fun x => decide (x = 7)) wState = (false, wState) ∧
     reset (fun x => x + 1) (fun x => decide (x = 7)) 9 wState = (false, wState)) ∧
    (currentPayload (edit (fun x => x + 1) (fun x => decide (x = 3)) wState).2 = some 4 ∧
     currentPayload (reset (fun x => x + 1) (fun x => decide (x = 3)) 9 wState).2 = some 10) :=
  ⟨(edit_reset_predicate_semantics (fun x => x + 1) (fun x => decide (x = 7)) 9 wState 1 3
      rfl rfl).1 (by decide),
   ⟨((edit_reset_predicate_semantics (fun x => x + 1) (fun x => decide (x = 3)) 9 wState 1 3
      rfl rfl).2 (by decide)).2.1,
    ((edit_reset_predicate_semantics (fun x => x + 1) (fun x => decide (x = 3)) 9 wState 1 3
      rfl rfl).2 (by decide)).2.2.2⟩⟩

/-- Claim C2: from a quiescent well-formed state, every mutating operation
returns `true` exactly when it published a new version (the slot moved to a
fresh snapshot); `edit`/`reset` return `false` exactly when the predicate
rejected, the try-variants exactly when the lock was contended or the
predicate rejected, and `emplace` (which has no predicate) always publishes
and returns `true`. -/
theorem mutators_report_publication {T : Type} (m : T → T) (ver : T → Bool) (v : T)
    (s : State T) (rc : Nat) (p : T)
    (h : s.heap s.slotAddr = some ⟨rc, p⟩) (hfresh : s.heap s.nextAddr = none)
    (hlock : s.lockHeld = false) :
    ((emplace v s).1 = true ∧ (emplace v s).2.slotAddr ≠ s.slotAddr) ∧
    ((edit m ver s).1 = true ↔ (edit m ver s).2.slotAddr ≠ s.slotAddr) ∧
    ((reset m ver v s).1 = true ↔ (reset m ver v s).2.slotAddr ≠ s.slotAddr) ∧
    ((tryEdit m ver s).1 = true ↔ (tryEdit m ver s).2.slotAddr ≠ s.slotAddr) ∧
    ((tryReset m ver v s).1 = true ↔ (tryReset m ver v s).2.slotAddr ≠ s.slotAddr) ∧
    ((edit m ver s).1 = false ↔ ver p = false) ∧
    ((reset m ver v s).1 = false ↔ ver p = false) ∧
    ((tryEdit m ver s).1 = false ↔ (s.lockHeld = true ∨ ver p = false)) ∧
    ((tryReset m ver v s).1 = false ↔ (s.lockHeld = true ∨ ver p = false)) := by
  have hne : s.nextAddr ≠ s.slotAddr := by
    intro he
    rw [← he, hfresh] at h
    exact Option.noConfusion h
  cases hv : ver p <;>
    simp [emplace, edit, reset, tryEdit, tryReset, replaceWithModifiedCopy,
      replaceWithNew, replace, h, hv, hlock, hne]

theorem mutators_report_publication_witness :
    (emplace 5 wState).1 = true ∧
    ((tryEdit (fun x => x + 1) (fun x => decide (x = 7)) wState).1 = false ↔
      (wState.lockHeld = true ∨ decide ((3 : Nat) = 7) = false)) :=
  ⟨(mutators_report_publication (fun x => x + 1) (fun x => decide (x = 7)) 5 wState 1 3
      rfl rfl rfl).1.1,
   (mutators_report_publication (fun x => x + 1) (fun x => decide (x = 7)) 5 wState 1 3
      rfl rfl rfl).2.2.2.2.2.2.2.1⟩

/-- Claim C6: a non-blocking write (`tryEdit` or `tryReset`) issued while the
container's write lock is already held — as it is for the whole duration of a
modifier or predicate running inside a write operation on the same container —
returns `false` and leaves the state (in particular the published payload)
entirely unchanged, without blocking. -/
theorem try_variants_fail_under_contention {T : Type} (m : T → T) (ver : T → Bool)
    (v : T) (s : State T) (hlock : s.lockHeld = true) :
    tryEdit m ver s = (false, s) ∧ tryReset m ver v s = (false, s) := by
  constructor <;> simp [tryEdit, tryReset, hlock]

theorem try_variants_fail_under_contention_witness :
    tryEdit (fun x => x + 1) (fun _ => true) wStateLocked = (false, wStateLocked) ∧
    tryReset (fun x => x + 1) (fun _ => true) 9 wStateLocked = (false, wStateLocked) :=
  try_variants_fail_under_contention (fun x => x + 1) (fun _ => true) 9 wStateLocked rfl

/-- Claim C7: if building the replacement fails — whether in the payload
constructor / copy constructor inside `new Internal(...)` (`fs`) or in the
modifier run on the draft (`md`) — the failure propagates to the caller before
any publish: the slot still holds the previous snapshot, the heap is pointwise
what it was (the partially built replacement at the fresh address has been
reclaimed by `DuplicateHolder`), and no new version is observed. -/
theorem build_failure_preserves_state {T E : Type} (fs : T → Except E T)
    (md : T → Except E T) (ver : T → Bool) (s : State T) (rc : Nat) (p : T) (e : E)
    (h : s.heap s.slotAddr = some ⟨rc, p⟩) (hfresh : s.heap s.nextAddr = none)
    (hv : ver p = true) :
    (fs p = .error e → replaceE fs md ver s = (.error e, s)) ∧
    (∀ c, fs p = .ok c → md c = .error e →
      (replaceE fs md ver s).1 = .error e ∧
      (replaceE fs md ver s).2.slotAddr = s.slotAddr ∧
      (replaceE fs md ver s).2.heap s.nextAddr = none ∧
      (∀ b, (replaceE fs md ver s).2.heap b = s.heap b)) := by
  constructor
  · intro hfs
    simp [replaceE, h, hv, hfs]
  · intro c hfs hmd
    simp only [replaceE, h, hv, if_true, hfs, hmd]
    refine ⟨trivial, trivial, upd_self _ _ _, ?_⟩
    intro b
    by_cases hb : b = s.nextAddr
    · rw [hb, upd_self, hfresh]
    · rw [upd_other _ _ _ _ hb, upd_other _ _ _ _ hb]

theorem build_failure_preserves_state_witness :
    (replaceE (fun x => Except.error (x + 100)) (fun x => Except.ok x)
        (fun _ => true) wState = (Except.error 103, wState)) ∧
    ((replaceE (fun x => Except.ok x) (fun x => Except.error (x + 100))
        (fun _ => true) wState).1 = Except.error 103 ∧
     (replaceE (fun x => Except.ok x) (fun x => Except.error (x + 100))
        (fun _ => true) wState).2.heap 1 = none) :=
  ⟨(build_failure_preserves_state (fun x => Except.error (x + 100)) (fun x => Except.ok x)
      (fun _ => true) wState 1 3 103 rfl rfl rfl).1 rfl,
   ((build_failure_preserves_state (fun x => Except.ok x) (fun x => Except.error (x + 100))
      (fun _ => true) wState 1 3 103 rfl rfl rfl).2 3 rfl rfl).1,
   ((build_failure_preserves_state (fun x => Except.ok x) (fun x => Except.error (x + 100))
      (fun _ => true) wState 1 3 103 rfl rfl rfl).2 3 rfl rfl).2.2.1⟩

/-- Claim C8: with no outstanding handles and no operation in progress, the
final snapshot's strong count is exactly 1 (the slot's own reference), so the
destructor's `safeInstance` raises it to 2 and the two `getRidOfPointer`
calls drain it to exactly 0: the first release deallocates nothing, the
second deallocates the snapshot, and no other heap cell is touched — no leak
and no double free. -/
theorem destructor_reclaims_final_snapshot {T : Type} (s : State T) (p : T)
    (h : s.heap s.slotAddr = some ⟨1, p⟩) :
    (destructor s).2.1 = false ∧ (destructor s).2.2 = true ∧
    (destructor s).1 s.slotAddr = none ∧
    (∀ b, b ≠ s.slotAddr → (destructor s).1 b = s.heap b) := by
  have h1 : incRef s.heap s.slotAddr = upd s.heap s.slotAddr (some ⟨2, p⟩) := by
    simp [incRef, h]
  have h2 : getRidOfPointer (upd s.heap s.slotAddr (some ⟨2, p⟩)) s.slotAddr
      = (upd (upd s.heap s.slotAddr (some ⟨2, p⟩)) s.slotAddr (some ⟨1, p⟩), false) := by
    simp [getRidOfPointer, upd_self]
  have h3 : getRidOfPointer (upd (upd s.heap s.slotAddr (some ⟨2, p⟩)) s.slotAddr
        (some ⟨1, p⟩)) s.slotAddr
      = (upd (upd (upd s.heap s.slotAddr (some ⟨2, p⟩)) s.slotAddr (some ⟨1, p⟩))
          s.slotAddr none, true) := by
    simp [getRidOfPointer, upd_self]
  refine ⟨?_, ?_, ?_, ?_⟩
  · simp [destructor, safeInstance, h1, h2, h3]
  · simp [destructor, safeInstance, h1, h2, h3]
  · simp [destructor, safeInstance, h1, h2, h3, upd_self]
  · intro b hb
    simp [destructor, safeInstance, h1, h2, h3, upd_other _ _ _ _ hb]

theorem destructor_reclaims_final_snapshot_witness :
    (destructor wState).2.1 = false ∧ (destructor wState).2.2 = true ∧
    (destructor wState).1 0 = none :=
  ⟨(destructor_reclaims_final_snapshot wState 3 rfl).1,
   (destructor_reclaims_final_snapshot wState 3 rfl).2.1,
   (destructor_reclaims_final_snapshot wState 3 rfl).2.2.1⟩

/-- Claim C5: for a non-empty handle bound to a live snapshot, copy
construction increments that snapshot's strong count by exactly one and the
copy is independently destructible — destroying it decrements the count by
exactly one, deallocates nothing (the original handle's reference is still
counted) and touches no other heap cell; move construction transfers
ownership without any refcount operation (it does not touch the heap at all),
leaves the source empty, and destroying the emptied source is a safe no-op. -/
theorem handle_copy_move_refcount {T : Type} (h : Heap T) (a rc : Nat) (p : T)
    (hl : h a = some ⟨rc, p⟩) (hrc : 1 ≤ rc) :
    copyCtor (some a) h = some (some a, upd h a (some ⟨rc + 1, p⟩)) ∧
    (handleDtor (some a) (upd h a (some ⟨rc + 1, p⟩))).2 = false ∧
    (handleDtor (some a) (upd h a (some ⟨rc + 1, p⟩))).1 a = some ⟨rc, p⟩ ∧
    (∀ b, b ≠ a → (handleDtor (some a) (upd h a (some ⟨rc + 1, p⟩))).1 b = h b) ∧
    moveCtor (some a) = (some a, none) ∧
    handleDtor none h = (h, false) := by
  have hrc0 : ¬ rc = 0 := by omega
  refine ⟨?_, ?_, ?_, ?_, rfl, rfl⟩
  · simp [copyCtor, hl]
  · simp [handleDtor, getRidOfPointer, upd_self, hrc0]
  · simp [handleDtor, getRidOfPointer, upd_self, hrc0]
  · intro b hb
    simp [handleDtor, getRidOfPointer, upd_self, hrc0, upd_other _ _ _ _ hb]

theorem handle_copy_move_refcount_witness :
    copyCtor (some 0) wHeap = some (some 0, upd wHeap 0 (some ⟨2, 3⟩)) ∧
    (handleDtor (some 0) (upd wHeap 0 (some ⟨2, 3⟩))).1 0 = some ⟨1, 3⟩ ∧
    moveCtor (some 0) = (some 0, none) :=
  ⟨(handle_copy_move_refcount wHeap 0 1 3 rfl (by decide)).1,
   (handle_copy_move_refcount wHeap 0 1 3 rfl (by decide)).2.2.1,
   (handle_copy_move_refcount wHeap 0 1 3 rfl (by decide)).2.2.2.2.1⟩

/-- Claim C10 is contradicted by the source: the copy constructor of
`CopyOnWriteStateReference` runs `instance->refcount++` with no null check
(unlike the move constructor and both assignment operators, which do guard
against an empty source), so copy-constructing from a handle left empty by a
move dereferences a null pointer instead of safely yielding an empty handle.
The embedding evaluates that path to the fault value `none`. -/
theorem copy_from_empty_handle_faults :
    copyCtor (T := Nat) none (fun _ => none) = none := rfl

theorem getRid_self_of_one {T : Type} (h : Heap T) (a : Nat) (it : Internal T)
    (hl : h a = some it) (h1 : it.refcount = 1) :
    (getRidOfPointer h a).1 a = none := by
  simp [getRidOfPointer, hl, h1, upd_self]

theorem getRid_self_of_ge2 {T : Type} (h : Heap T) (a : Nat) (it : Internal T)
    (hl : h a = some it) (h2 : 2 ≤ it.refcount) :
    (getRidOfPointer h a).1 a = some ⟨it.refcount - 1, it.inst⟩ := by
  simp [getRidOfPointer, hl, upd_self, show ¬ (it.refcount - 1 = 0) by omega]

theorem incRef_lookup_self {T : Type} (h : Heap T) (a : Nat) (it : Internal T)
    (hl : h a = some it) : incRef h a a = some ⟨it.refcount + 1, it.inst⟩ := by
  simp [incRef, hl, upd_self]

theorem incRef_lookup_other {T : Type} (h : Heap T) (a b : Nat) (hb : b ≠ a) :
    incRef h a b = h b := by
  cases hx : h a <;> simp [incRef, hx, upd_other _ _ _ _ hb]

theorem replace_eq_of_accept {T : Type} (cr : T → T) (ver : T → Bool) (s : State T)
    (it0 : Internal T) (hslot : s.heap s.slotAddr = some it0)
    (hv : ver it0.inst = true) :
    replace cr ver s =
      (true,
       { heap := (getRidOfPointer (upd s.heap s.nextAddr (some ⟨1, cr it0.inst⟩))
                    s.slotAddr).1,
         slotAddr := s.nextAddr, slotCount := 0,
         previousCopyCounter := s.previousCopyCounter + (s.slotCount : Int),
         lockHeld := s.lockHeld, nextAddr := s.nextAddr + 1 }) := by
  simp [replace, hslot, hv]

theorem replace_eq_of_reject {T : Type} (cr : T → T) (ver : T → Bool) (s : State T)
    (it0 : Internal T) (hslot : s.heap s.slotAddr = some it0)
    (hv : ver it0.inst = false) :
    replace cr ver s = (false, s) := by
  simp [replace, hslot, hv]

theorem replace_tracks {T : Type} (cr : T → T) (ver : T → Bool) (s : State T)
    (a : Nat) (p : T) (ht : Tracks s a p) : Tracks (replace cr ver s).2 a p := by
  obtain ⟨hfresh, ⟨it0, hslot⟩, rc, ha, hge⟩ := ht
  have haLt : a < s.nextAddr := by
    by_contra hle
    rw [hfresh a (by omega)] at ha
    exact Option.noConfusion ha
  have hsLt : s.slotAddr < s.nextAddr := by
    by_contra hle
    rw [hfresh _ (by omega)] at hslot
    exact Option.noConfusion hslot
  cases hv : ver it0.inst with
  | false =>
    rw [replace_eq_of_reject cr ver s it0 hslot hv]
    exact ⟨hfresh, ⟨it0, hslot⟩, rc, ha, hge⟩
  | true =>
    rw [replace_eq_of_accept cr ver s it0 hslot hv]
    refine ⟨?_, ?_, ?_⟩
    · intro b hb
      have hb' : s.nextAddr + 1 ≤ b := hb
      show (getRidOfPointer (upd s.heap s.nextAddr (some ⟨1, cr it0.inst⟩))
        s.slotAddr).1 b = none
      rw [getRid_other _ _ _ (show b ≠ s.slotAddr by omega),
        upd_other _ _ _ _ (show b ≠ s.nextAddr by omega)]
      exact hfresh b (by omega)
    · refine ⟨⟨1, cr it0.inst⟩, ?_⟩
      show (getRidOfPointer (upd s.heap s.nextAddr (some ⟨1, cr it0.inst⟩))
        s.slotAddr).1 s.nextAddr = some ⟨1, cr it0.inst⟩
      rw [getRid_other _ _ _ (show s.nextAddr ≠ s.slotAddr by omega), upd_self]
    · by_cases hEq : s.slotAddr = a
      · have hit : it0 = ⟨rc, p⟩ := by
          rw [hEq] at hslot
          exact Option.some.inj (hslot.symm.trans ha)
        have hge2 : 2 ≤ rc := by
          rw [if_pos hEq] at hge
          exact hge
        refine ⟨rc - 1, ?_, ?_⟩
        · show (getRidOfPointer (upd s.heap s.nextAddr (some ⟨1, cr it0.inst⟩))
            s.slotAddr).1 a = some ⟨rc - 1, p⟩
          rw [← hEq]
          have hh : upd s.heap s.nextAddr (some ⟨1, cr it0.inst⟩) s.slotAddr
              = some (⟨rc, p⟩ : Internal T) := by
            rw [upd_other _ _ _ _ (show s.slotAddr ≠ s.nextAddr by omega), hslot, hit]
          rw [getRid_self_of_ge2 _ _ _ hh (by exact hge2)]
        · show (if s.nextAddr = a then 2 else 1) ≤ rc - 1
          rw [if_neg (show ¬ s.nextAddr = a by omega)]
          omega
      · refine ⟨rc, ?_, ?_⟩
        · show (getRidOfPointer (upd s.heap s.nextAddr (some ⟨1, cr it0.inst⟩))
            s.slotAddr).1 a = some ⟨rc, p⟩
          rw [getRid_other _ _ _ (show a ≠ s.slotAddr from fun he => hEq he.symm),
            upd_other _ _ _ _ (show a ≠ s.nextAddr by omega)]
          exact ha
        · show (if s.nextAddr = a then 2 else 1) ≤ rc
          rw [if_neg (show ¬ s.nextAddr = a by omega)]
          rw [if_neg hEq] at hge
          exact hge

theorem mutop_tracks {T : Type} (o : MutOp T) (s : State T) (a : Nat) (p : T)
    (ht : Tracks s a p) : Tracks (o.apply s).2 a p := by
  cases o with
  | emplaceM v => exact replace_tracks _ _ _ _ _ ht
  | resetM m ver v => exact replace_tracks _ _ _ _ _ ht
  | editM m ver => exact replace_tracks _ _ _ _ _ ht
  | tryResetM m ver v =>
    by_cases hl : s.lockHeld
    · simpa [MutOp.apply, tryReset, hl] using ht
    · simpa [MutOp.apply, tryReset, hl, replaceWithNew] using
        replace_tracks (fun _ => m v) ver s a p ht
  | tryEditM m ver =>
    by_cases hl : s.lockHeld
    · simpa [MutOp.apply, tryEdit, hl] using ht
    · simpa [MutOp.apply, tryEdit, hl, replaceWithModifiedCopy] using
        replace_tracks (fun old => m old) ver s a p ht

theorem runMuts_tracks {T : Type} (ops : List (MutOp T)) (s : State T) (a : Nat)
    (p : T) (ht : Tracks s a p) : Tracks (runMuts ops s) a p := by
  induction ops generalizing s with
  | nil => exact ht
  | cons o os ih => exact ih _ (mutop_tracks o s a p ht)

/-- Claim C4: take a handle from `get`, then run any sequence of mutating
operations.  The snapshot the handle is bound to is still allocated (its
refcount stays positive — the handle keeps it alive) and its payload is
exactly the payload at acquisition time: mutating operations only build
fresh copies at fresh addresses and never mutate a published snapshot's
payload in place. -/
theorem handle_payload_immutable {T : Type} (s : State T) (rc : Nat) (p : T)
    (hfresh : ∀ b, s.nextAddr ≤ b → s.heap b = none)
    (h : s.heap s.slotAddr = some ⟨rc, p⟩) (hrc : 1 ≤ rc)
    (ops : List (MutOp T)) :
    ∃ rc', (runMuts ops (get s).2).heap (get s).1 = some ⟨rc', p⟩ ∧ 1 ≤ rc' := by
  have hsLt : s.slotAddr < s.nextAddr := by
    by_contra hle
    rw [hfresh _ (by omega)] at h
    exact Option.noConfusion h
  have ht : Tracks (get s).2 (get s).1 p := by
    refine ⟨?_, ?_, ⟨rc + 1, ?_, ?_⟩⟩
    · intro b hb
      have hb' : s.nextAddr ≤ b := hb
      show incRef s.heap s.slotAddr b = none
      rw [incRef_lookup_other _ _ _ (show b ≠ s.slotAddr by omega)]
      exact hfresh b hb'
    · exact ⟨⟨rc + 1, p⟩, incRef_lookup_self _ _ _ h⟩
    · exact incRef_lookup_self _ _ _ h
    · show (if s.slotAddr = s.slotAddr then 2 else 1) ≤ rc + 1
      rw [if_pos rfl]
      omega
  obtain ⟨_, _, rc', ha, hge⟩ := runMuts_tracks ops _ _ _ ht
  refine ⟨rc', ha, ?_⟩
  by_cases hc : (runMuts ops (get s).2).slotAddr = (get s).1
  · rw [if_pos hc] at hge
    omega
  · rw [if_neg hc] at hge
    exact hge

theorem handle_payload_immutable_witness :
    ∃ rc', (runMuts [MutOp.editM (fun x => x + 1) (fun _ => true),
              MutOp.emplaceM 9] (get wState).2).heap (get wState).1
        = some ⟨rc', 3⟩ ∧ 1 ≤ rc' :=
  handle_payload_immutable wState 1 3
    (by
      intro b hb
      have hb' : 1 ≤ b := hb
      show upd (fun _ => none) 0 (some (⟨1, 3⟩ : Internal Nat)) b = none
      rw [upd_other _ _ _ _ (show b ≠ 0 by omega)])
    rfl (by decide)
    [MutOp.editM (fun x => x + 1) (fun _ => true), MutOp.emplaceM 9]

theorem sysInv_slot_live {T : Type} (σ : Sys T) (hI : SysInv σ) :
    ∃ it, σ.st.heap σ.st.slotAddr = some it := by
  cases hx : σ.st.heap σ.st.slotAddr with
  | some it => exact ⟨it, rfl⟩
  | none => exact absurd rfl (hI.2.2.2 _ hx).2

theorem sysInv_handle_live {T : Type} (σ : Sys T) (hI : SysInv σ) (a : Nat)
    (ha : a ∈ σ.handles) : ∃ it, σ.st.heap a = some it := by
  cases hx : σ.st.heap a with
  | some it => exact ⟨it, rfl⟩
  | none => exact absurd ha (hI.2.2.2 _ hx).1

theorem lookup_lt_of_some {T : Type} (s : State T)
    (hfresh : ∀ b, s.nextAddr ≤ b → s.heap b = none) (a : Nat) (it : Internal T)
    (hx : s.heap a = some it) : a < s.nextAddr := by
  by_contra hle
  rw [hfresh a (by omega)] at hx
  exact Option.noConfusion hx

theorem replace_sysInv {T : Type} (cr : T → T) (ver : T → Bool) (σ : Sys T)
    (hI : SysInv σ) : SysInv ⟨(replace cr ver σ.st).2, σ.handles⟩ := by
  obtain ⟨hfresh, hslotLt, hsome, hnone⟩ := hI
  obtain ⟨it0, hslot⟩ := sysInv_slot_live σ ⟨hfresh, hslotLt, hsome, hnone⟩
  cases hv : ver it0.inst with
  | false =>
    rw [replace_eq_of_reject cr ver σ.st it0 hslot hv]
    exact ⟨hfresh, hslotLt, hsome, hnone⟩
  | true =>
    rw [replace_eq_of_accept cr ver σ.st it0 hslot hv]
    have hrc0 : it0.refcount = σ.handles.count σ.st.slotAddr + 1 := by
      have h1 := (hsome _ _ hslot).1
      rw [if_pos rfl] at h1
      exact h1
    have hnextNone : σ.st.heap σ.st.nextAddr = none := hfresh _ le_rfl
    have hnextNotMem : σ.st.nextAddr ∉ σ.handles := (hnone _ hnextNone).1
    have hsl_ne : σ.st.slotAddr ≠ σ.st.nextAddr := by omega
    have hh1slot : upd σ.st.heap σ.st.nextAddr (some ⟨1, cr it0.inst⟩) σ.st.slotAddr
        = some it0 := by
      rw [upd_other _ _ _ _ hsl_ne]
      exact hslot
    refine ⟨?_, ?_, ?_, ?_⟩
    · intro b hb
      have hb' : σ.st.nextAddr + 1 ≤ b := hb
      show (getRidOfPointer (upd σ.st.heap σ.st.nextAddr (some ⟨1, cr it0.inst⟩))
        σ.st.slotAddr).1 b = none
      rw [getRid_other _ _ _ (show b ≠ σ.st.slotAddr by omega),
        upd_other _ _ _ _ (show b ≠ σ.st.nextAddr by omega)]
      exact hfresh b (by omega)
    · show σ.st.nextAddr < σ.st.nextAddr + 1
      omega
    · intro b it hx
      have hx' : (getRidOfPointer (upd σ.st.heap σ.st.nextAddr
          (some ⟨1, cr it0.inst⟩)) σ.st.slotAddr).1 b = some it := hx
      show it.refcount = σ.handles.count b + (if σ.st.nextAddr = b then 1 else 0) ∧
        1 ≤ it.refcount
      by_cases hbn : b = σ.st.nextAddr
      · rw [hbn, getRid_other _ _ _ (show σ.st.nextAddr ≠ σ.st.slotAddr by omega),
          upd_self] at hx'
        obtain rfl := Option.some.inj hx'
        refine ⟨?_, ?_⟩
        · show 1 = σ.handles.count b + (if σ.st.nextAddr = b then 1 else 0)
          rw [if_pos hbn.symm, hbn, List.count_eq_zero.mpr hnextNotMem]
        · show 1 ≤ 1
          omega
      · by_cases hbs : b = σ.st.slotAddr
        · by_cases hc0 : it0.refcount - 1 = 0
          · rw [hbs, getRid_self_of_one _ _ _ hh1slot (by omega)] at hx'
            exact Option.noConfusion hx'
          · rw [hbs, getRid_self_of_ge2 _ _ _ hh1slot (by omega)] at hx'
            obtain rfl := Option.some.inj hx'
            refine ⟨?_, ?_⟩
            · show it0.refcount - 1
                = σ.handles.count b + (if σ.st.nextAddr = b then 1 else 0)
              rw [if_neg (show ¬ σ.st.nextAddr = b from fun he => hbn he.symm), hbs]
              omega
            · show 1 ≤ it0.refcount - 1
              omega
        · rw [getRid_other _ _ _ hbs, upd_other _ _ _ _ hbn] at hx'
          have hob := hsome b it hx'
          rw [if_neg (show ¬ σ.st.slotAddr = b from fun he => hbs he.symm)] at hob
          rw [if_neg (show ¬ σ.st.nextAddr = b from fun he => hbn he.symm)]
          exact hob
    · intro b hx
      have hx' : (getRidOfPointer (upd σ.st.heap σ.st.nextAddr
          (some ⟨1, cr it0.inst⟩)) σ.st.slotAddr).1 b = none := hx
      show b ∉ σ.handles ∧ σ.st.nextAddr ≠ b
      by_cases hbn : b = σ.st.nextAddr
      · rw [hbn, getRid_other _ _ _ (show σ.st.nextAddr ≠ σ.st.slotAddr by omega),
          upd_self] at hx'
        exact Option.noConfusion hx'
      · by_cases hbs : b = σ.st.slotAddr
        · by_cases hc0 : it0.refcount - 1 = 0
          · refine ⟨?_, ?_⟩
            · rw [hbs]
              have hz : σ.handles.count σ.st.slotAddr = 0 := by omega
              exact List.count_eq_zero.mp hz
            · omega
          · rw [hbs, getRid_self_of_ge2 _ _ _ hh1slot (by omega)] at hx'
            exact Option.noConfusion hx'
        · rw [getRid_other _ _ _ hbs, upd_other _ _ _ _ hbn] at hx'
          have hob := hnone b hx'
          exact ⟨hob.1, fun he => hbn he.symm⟩

theorem mutop_sysInv {T : Type} (o : MutOp T) (σ : Sys T) (hI : SysInv σ) :
    SysInv ⟨(o.apply σ.st).2, σ.handles⟩ := by
  cases o with
  | emplaceM v => exact replace_sysInv _ _ _ hI
  | resetM m ver v => exact replace_sysInv _ _ _ hI
  | editM m ver => exact replace_sysInv _ _ _ hI
  | tryResetM m ver v =>
    by_cases hl : σ.st.lockHeld
    · have he : (MutOp.apply (.tryResetM m ver v) σ.st).2 = σ.st := by
        simp [MutOp.apply, tryReset, hl]
      rw [he]
      exact hI
    · have he : (MutOp.apply (.tryResetM m ver v) σ.st).2
          = (replace (fun _ => m v) ver σ.st).2 := by
        simp [MutOp.apply, tryReset, hl, replaceWithNew]
      rw [he]
      exact replace_sysInv _ _ _ hI
  | tryEditM m ver =>
    by_cases hl : σ.st.lockHeld
    · have he : (MutOp.apply (.tryEditM m ver) σ.st).2 = σ.st := by
        simp [MutOp.apply, tryEdit, hl]
      rw [he]
      exact hI
    · have he : (MutOp.apply (.tryEditM m ver) σ.st).2
          = (replace (fun old => m old) ver σ.st).2 := by
        simp [MutOp.apply, tryEdit, hl, replaceWithModifiedCopy]
      rw [he]
      exact replace_sysInv _ _ _ hI

theorem get_sysInv {T : Type} (σ : Sys T) (hI : SysInv σ) :
    SysInv (Op.step Op.getO σ) := by
  obtain ⟨hfresh, hslotLt, hsome, hnone⟩ := hI
  obtain ⟨it0, hslot⟩ := sysInv_slot_live σ ⟨hfresh, hslotLt, hsome, hnone⟩
  have hrc0 : it0.refcount = σ.handles.count σ.st.slotAddr + 1 := by
    have h1 := (hsome _ _ hslot).1
    rw [if_pos rfl] at h1
    exact h1
  refine ⟨?_, ?_, ?_, ?_⟩
  · intro b hb
    have hb' : σ.st.nextAddr ≤ b := hb
    show incRef σ.st.heap σ.st.slotAddr b = none
    rw [incRef_lookup_other _ _ _ (show b ≠ σ.st.slotAddr by omega)]
    exact hfresh b hb'
  · show σ.st.slotAddr < σ.st.nextAddr
    exact hslotLt
  · intro a it hx
    have hx' : incRef σ.st.heap σ.st.slotAddr a = some it := hx
    show it.refcount = (σ.st.slotAddr :: σ.handles).count a +
        (if σ.st.slotAddr = a then 1 else 0) ∧ 1 ≤ it.refcount
    by_cases haS : a = σ.st.slotAddr
    · rw [haS, incRef_lookup_self _ _ _ hslot] at hx'
      obtain rfl := Option.some.inj hx'
      refine ⟨?_, ?_⟩
      · show it0.refcount + 1
          = (σ.st.slotAddr :: σ.handles).count a + (if σ.st.slotAddr = a then 1 else 0)
        rw [if_pos haS.symm, haS, List.count_cons_self]
        omega
      · show 1 ≤ it0.refcount + 1
        omega
    · rw [incRef_lookup_other _ _ _ haS] at hx'
      have hob := hsome a it hx'
      rw [List.count_cons_of_ne haS]
      exact hob
  · intro a hx
    have hx' : incRef σ.st.heap σ.st.slotAddr a = none := hx
    show a ∉ (σ.st.slotAddr :: σ.handles) ∧ σ.st.slotAddr ≠ a
    by_cases haS : a = σ.st.slotAddr
    · rw [haS, incRef_lookup_self _ _ _ hslot] at hx'
      exact Option.noConfusion hx'
    · rw [incRef_lookup_other _ _ _ haS] at hx'
      have hob := hnone a hx'
      refine ⟨?_, hob.2⟩
      simp only [List.mem_cons, not_or]
      exact ⟨haS, hob.1⟩

theorem copy_sysInv {T : Type} (a : Nat) (σ : Sys T) (hI : SysInv σ) :
    SysInv (Op.step (Op.copyO a) σ) := by
  obtain ⟨hfresh, hslotLt, hsome, hnone⟩ := hI
  by_cases hmem : a ∈ σ.handles
  · obtain ⟨ita, ha⟩ :=
      sysInv_handle_live σ ⟨hfresh, hslotLt, hsome, hnone⟩ a hmem
    have hstep : Op.step (Op.copyO a) σ
        = ⟨{ σ.st with heap := incRef σ.st.heap a }, a :: σ.handles⟩ := by
      simp [Op.step, hmem]
    rw [hstep]
    have hrcA := hsome a ita ha
    refine ⟨?_, ?_, ?_, ?_⟩
    · intro b hb
      have hb' : σ.st.nextAddr ≤ b := hb
      have haLt : a < σ.st.nextAddr := lookup_lt_of_some σ.st hfresh a ita ha
      show incRef σ.st.heap a b = none
      rw [incRef_lookup_other _ _ _ (show b ≠ a by omega)]
      exact hfresh b hb'
    · show σ.st.slotAddr < σ.st.nextAddr
      exact hslotLt
    · intro b it hx
      have hx' : incRef σ.st.heap a b = some it := hx
      show it.refcount = (a :: σ.handles).count b +
          (if σ.st.slotAddr = b then 1 else 0) ∧ 1 ≤ it.refcount
      by_cases hba : b = a
      · rw [hba, incRef_lookup_self _ _ _ ha] at hx'
        obtain rfl := Option.some.inj hx'
        refine ⟨?_, ?_⟩
        · show ita.refcount + 1
            = (a :: σ.handles).count b + (if σ.st.slotAddr = b then 1 else 0)
          rw [hba, List.count_cons_self]
          by_cases hsl : σ.st.slotAddr = a
          · rw [if_pos hsl] at hrcA ⊢
            omega
          · rw [if_neg hsl] at hrcA ⊢
            omega
        · show 1 ≤ ita.refcount + 1
          omega
      · rw [incRef_lookup_other _ _ _ hba] at hx'
        have hob := hsome b it hx'
        rw [List.count_cons_of_ne hba]
        exact hob
    · intro b hx
      have hx' : incRef σ.st.heap a b = none := hx
      show b ∉ (a :: σ.handles) ∧ σ.st.slotAddr ≠ b
      by_cases hba : b = a
      · rw [hba, incRef_lookup_self _ _ _ ha] at hx'
        exact Option.noConfusion hx'
      · rw [incRef_lookup_other _ _ _ hba] at hx'
        have hob := hnone b hx'
        refine ⟨?_, hob.2⟩
        simp only [List.mem_cons, not_or]
        exact ⟨hba, hob.1⟩
  · have hstep : Op.step (Op.copyO a) σ = σ := by simp [Op.step, hmem]
    rw [hstep]
    exact ⟨hfresh, hslotLt, hsome, hnone⟩

theorem drop_sysInv {T : Type} (a : Nat) (σ : Sys T) (hI : SysInv σ) :
    SysInv (Op.step (Op.dropO a) σ) := by
  obtain ⟨hfresh, hslotLt, hsome, hnone⟩ := hI
  by_cases hmem : a ∈ σ.handles
  · obtain ⟨ita, ha⟩ :=
      sysInv_handle_live σ ⟨hfresh, hslotLt, hsome, hnone⟩ a hmem
    have haLt : a < σ.st.nextAddr := lookup_lt_of_some σ.st hfresh a ita ha
    have hcnt : 0 < σ.handles.count a := List.count_pos_iff.mpr hmem
    have hold := hsome a ita ha
    have hstep : Op.step (Op.dropO a) σ
        = ⟨{ σ.st with heap := (getRidOfPointer σ.st.heap a).1 },
           σ.handles.erase a⟩ := by
      simp [Op.step, hmem]
    rw [hstep]
    by_cases hc0 : ita.refcount - 1 = 0
    · have hrc1 : ita.refcount = 1 := by omega
      have hind : ¬ σ.st.slotAddr = a := by
        by_cases hsl : σ.st.slotAddr = a
        · rw [if_pos hsl] at hold
          omega
        · exact hsl
      have hcnt1 : σ.handles.count a = 1 := by
        rw [if_neg hind] at hold
        omega
      have hga : (getRidOfPointer σ.st.heap a).1 a = none :=
        getRid_self_of_one _ _ _ ha hrc1
      refine ⟨?_, ?_, ?_, ?_⟩
      · intro b hb
        have hb' : σ.st.nextAddr ≤ b := hb
        show (getRidOfPointer σ.st.heap a).1 b = none
        rw [getRid_other _ _ _ (show b ≠ a by omega)]
        exact hfresh b hb'
      · show σ.st.slotAddr < σ.st.nextAddr
        exact hslotLt
      · intro b it hx
        have hx' : (getRidOfPointer σ.st.heap a).1 b = some it := hx
        show it.refcount = (σ.handles.erase a).count b +
            (if σ.st.slotAddr = b then 1 else 0) ∧ 1 ≤ it.refcount
        by_cases hba : b = a
        · rw [hba, hga] at hx'
          exact Option.noConfusion hx'
        · rw [getRid_other _ _ _ hba] at hx'
          have hob := hsome b it hx'
          rw [List.count_erase_of_ne hba]
          exact hob
      · intro b hx
        have hx' : (getRidOfPointer σ.st.heap a).1 b = none := hx
        show b ∉ σ.handles.erase a ∧ σ.st.slotAddr ≠ b
        by_cases hba : b = a
        · subst hba
          refine ⟨?_, fun he => hind he⟩
          intro hmem'
          have hpos := List.count_pos_iff.mpr hmem'
          rw [List.count_erase_self] at hpos
          omega
        · rw [getRid_other _ _ _ hba] at hx'
          have hob := hnone b hx'
          exact ⟨fun hm => hob.1 (List.mem_of_mem_erase hm), hob.2⟩
    · have hge2 : 2 ≤ ita.refcount := by
        have hone := (hsome a ita ha).2
        omega
      have hga : (getRidOfPointer σ.st.heap a).1 a
          = some ⟨ita.refcount - 1, ita.inst⟩ :=
        getRid_self_of_ge2 _ _ _ ha hge2
      refine ⟨?_, ?_, ?_, ?_⟩
      · intro b hb
        have hb' : σ.st.nextAddr ≤ b := hb
        show (getRidOfPointer σ.st.heap a).1 b = none
        rw [getRid_other _ _ _ (show b ≠ a by omega)]
        exact hfresh b hb'
      · show σ.st.slotAddr < σ.st.nextAddr
        exact hslotLt
      · intro b it hx
        have hx' : (getRidOfPointer σ.st.heap a).1 b = some it := hx
        show it.refcount = (σ.handles.erase a).count b +
            (if σ.st.slotAddr = b then 1 else 0) ∧ 1 ≤ it.refcount
        by_cases hba : b = a
        · rw [hba, hga] at hx'
          obtain rfl := Option.some.inj hx'
          refine ⟨?_, ?_⟩
          · show ita.refcount - 1 = (σ.handles.erase a).count b +
                (if σ.st.slotAddr = b then 1 else 0)
            rw [hba, List.count_erase_self]
            by_cases hsl : σ.st.slotAddr = a
            · rw [if_pos hsl] at hold ⊢
              omega
            · rw [if_neg hsl] at hold ⊢
              omega
          · show 1 ≤ ita.refcount - 1
            omega
        · rw [getRid_other _ _ _ hba] at hx'
          have hob := hsome b it hx'
          rw [List.count_erase_of_ne hba]
          exact hob
      · intro b hx
        have hx' : (getRidOfPointer σ.st.heap a).1 b = none := hx
        show b ∉ σ.handles.erase a ∧ σ.st.slotAddr ≠ b
        by_cases hba : b = a
        · rw [hba, hga] at hx'
          exact Option.noConfusion hx'
        · rw [getRid_other _ _ _ hba] at hx'
          have hob := hnone b hx'
          exact ⟨fun hm => hob.1 (List.mem_of_mem_erase hm), hob.2⟩
  · have hstep : Op.step (Op.dropO a) σ = σ := by simp [Op.step, hmem]
    rw [hstep]
    exact ⟨hfresh, hslotLt, hsome, hnone⟩

theorem step_sysInv {T : Type} (o : Op T) (σ : Sys T) (hI : SysInv σ) :
    SysInv (o.step σ) := by
  cases o with
  | getO => exact get_sysInv σ hI
  | mutO o => exact mutop_sysInv o σ hI
  | copyO a => exact copy_sysInv a σ hI
  | moveO => exact hI
  | dropO a => exact drop_sysInv a σ hI

theorem runOps_sysInv {T : Type} (ops : List (Op T)) (σ : Sys T) (hI : SysInv σ) :
    SysInv (runOps ops σ) := by
  induction ops generalizing σ with
  | nil => exact hI
  | cons o os ih => exact ih _ (step_sysInv o σ hI)

theorem init_sysInv {T : Type} (v : T) : SysInv (initSys v) := by
  refine ⟨?_, ?_, ?_, ?_⟩
  · intro b hb
    have hb' : 1 ≤ b := hb
    show upd (fun _ => none) 0 (some (⟨1, v⟩ : Internal T)) b = none
    rw [upd_other _ _ _ _ (show b ≠ 0 by omega)]
  · show (0 : Nat) < 1
    omega
  · intro a it hx
    have hx' : upd (fun _ => none) 0 (some (⟨1, v⟩ : Internal T)) a = some it := hx
    by_cases haz : a = 0
    · rw [haz, upd_self] at hx'
      obtain rfl := Option.some.inj hx'
      refine ⟨?_, ?_⟩
      · show 1 = ([] : List Nat).count a + (if (0 : Nat) = a then 1 else 0)
        rw [if_pos haz.symm]
        rfl
      · show 1 ≤ 1
        omega
    · rw [upd_other _ _ _ _ haz] at hx'
      exact Option.noConfusion hx'
  · intro a hx
    show a ∉ ([] : List Nat) ∧ (0 : Nat) ≠ a
    have hx' : upd (fun _ => none) 0 (some (⟨1, v⟩ : Internal T)) a = none := hx
    by_cases haz : a = 0
    · subst haz
      rw [upd_self] at hx'
      exact Option.noConfusion hx'
    · exact ⟨List.not_mem_nil a, fun he => haz he.symm⟩

/-- Claim C9: in every state reachable by any sequence of sequential public
operations (`get`, the five mutators, handle copy / move / destroy) from a
freshly constructed container, each live snapshot's strong count equals the
number of live handles bound to it plus one exactly when the versioned slot
currently holds it, and that count is positive — a snapshot is deallocated
exactly when the count reaches zero: a deallocated address has no live handle,
is not the slot, and a live one is never at count zero. -/
theorem refcount_matches_handles {T : Type} (v : T) (ops : List (Op T)) :
    (∀ a it, (runOps ops (initSys v)).st.heap a = some it →
        it.refcount = (runOps ops (initSys v)).handles.count a +
          (if (runOps ops (initSys v)).st.slotAddr = a then 1 else 0) ∧
        1 ≤ it.refcount) ∧
    (∀ a, (runOps ops (initSys v)).st.heap a = none →
        a ∉ (runOps ops (initSys v)).handles ∧
        (runOps ops (initSys v)).st.slotAddr ≠ a) := by
  have hI := runOps_sysInv ops (initSys v) (init_sysInv v)
  exact ⟨hI.2.2.1, hI.2.2.2⟩

theorem refcount_matches_handles_witness :
    (⟨2, 5⟩ : Internal Nat).refcount
        = (runOps [Op.getO] (initSys 5)).handles.count 0 +
          (if (runOps [Op.getO] (initSys 5)).st.slotAddr = 0 then 1 else 0) ∧
    1 ≤ (⟨2, 5⟩ : Internal Nat).refcount :=
  (refcount_matches_handles 5 [Op.getO]).1 0 ⟨2, 5⟩ rfl

end CopyOnWriteModel



namespace PublishModel

theorem committedPreserve (c c' : Config) (x : Nat)
    (hstore : c'.store x = c.store x) (hhist : ∀ p, p ∈ c.hist → p ∈ c'.hist)
    (h : committed c x) : committed c' x := by
  obtain ⟨p, hp, hcomp⟩ := h
  refine ⟨p, hhist p hp, ?_⟩
  rw [hstore]
  exact hcomp

theorem step_inv {c c' : Config} (hs : Step c c') (hI : Inv c) : Inv c' := by
  obtain ⟨hfresh, hslot, hreaders, hwriter⟩ := hI
  cases hs with
  | start v hw =>
    have hnone : c.store c.nextAddr = none := hfresh _ le_rfl
    have hne : ∀ x : Nat, committed c x → x ≠ c.nextAddr := by
      intro x hx he
      obtain ⟨p, hp, hcomp⟩ := hx
      rw [he, hnone] at hcomp
      exact Option.noConfusion hcomp
    refine ⟨?_, ?_, ?_, ?_⟩
    · intro b hb
      have hb' : c.nextAddr + 1 ≤ b := hb
      show CopyOnWriteModel.upd c.store c.nextAddr (some (none, none)) b = none
      rw [CopyOnWriteModel.upd_other _ _ _ _ (show b ≠ c.nextAddr by omega)]
      exact hfresh b (by omega)
    · refine committedPreserve c _ c.slot ?_ ?_ hslot
      · exact CopyOnWriteModel.upd_other _ _ _ _ (hne c.slot hslot)
      · intro p hp
        exact List.mem_cons_of_mem _ hp
    · intro i ad hr
      have hr' : c.readers.get? i = some (.done ad) := hr
      refine committedPreserve c _ ad ?_ ?_ (hreaders i ad hr')
      · exact CopyOnWriteModel.upd_other _ _ _ _ (hne ad (hreaders i ad hr'))
      · intro p hp
        exact List.mem_cons_of_mem _ hp
    · refine ⟨(show c.nextAddr < c.nextAddr + 1 by omega), ?_, List.mem_cons_self _ _⟩
      exact CopyOnWriteModel.upd_self _ _ _
  | writeA ad v hw =>
    have hwo : ad < c.nextAddr ∧ c.store ad = some (none, none) ∧ v ∈ c.hist := by
      have hwo := hwriter
      simp only [writerOK, hw] at hwo
      exact hwo
    have hne : ∀ x : Nat, committed c x → x ≠ ad := by
      intro x hx he
      obtain ⟨p, hp, hcomp⟩ := hx
      rw [he] at hcomp
      have hcl := hwo.2.1.symm.trans hcomp
      simp at hcl
    refine ⟨?_, ?_, ?_, ?_⟩
    · intro b hb
      have hb' : c.nextAddr ≤ b := hb
      show CopyOnWriteModel.upd c.store ad (some (some v.1, none)) b = none
      rw [CopyOnWriteModel.upd_other _ _ _ _ (show b ≠ ad by omega)]
      exact hfresh b hb'
    · exact committedPreserve c _ c.slot
        (CopyOnWriteModel.upd_other _ _ _ _ (hne c.slot hslot)) (fun p hp => hp) hslot
    · intro i ad2 hr
      have hr' : c.readers.get? i = some (.done ad2) := hr
      exact committedPreserve c _ ad2
        (CopyOnWriteModel.upd_other _ _ _ _ (hne ad2 (hreaders i ad2 hr')))
        (fun p hp => hp) (hreaders i ad2 hr')
    · refine ⟨hwo.1, ?_, hwo.2.2⟩
      exact CopyOnWriteModel.upd_self _ _ _
  | writeB ad v hw =>
    have hwo : ad < c.nextAddr ∧ c.store ad = some (some v.1, none) ∧ v ∈ c.hist := by
      have hwo := hwriter
      simp only [writerOK, hw] at hwo
      exact hwo
    have hne : ∀ x : Nat, committed c x → x ≠ ad := by
      intro x hx he
      obtain ⟨p, hp, hcomp⟩ := hx
      rw [he] at hcomp
      have hcl := hwo.2.1.symm.trans hcomp
      simp at hcl
    refine ⟨?_, ?_, ?_, ?_⟩
    · intro b hb
      have hb' : c.nextAddr ≤ b := hb
      show CopyOnWriteModel.upd c.store ad (some (some v.1, some v.2)) b = none
      rw [CopyOnWriteModel.upd_other _ _ _ _ (show b ≠ ad by omega)]
      exact hfresh b hb'
    · exact committedPreserve c _ c.slot
        (CopyOnWriteModel.upd_other _ _ _ _ (hne c.slot hslot)) (fun p hp => hp) hslot
    · intro i ad2 hr
      have hr' : c.readers.get? i = some (.done ad2) := hr
      exact committedPreserve c _ ad2
        (CopyOnWriteModel.upd_other _ _ _ _ (hne ad2 (hreaders i ad2 hr')))
        (fun p hp => hp) (hreaders i ad2 hr')
    · refine ⟨hwo.1, ?_, hwo.2.2⟩
      exact CopyOnWriteModel.upd_self _ _ _
  | publish ad v hw =>
    have hwo : ad < c.nextAddr ∧ c.store ad = some (some v.1, some v.2) ∧ v ∈ c.hist := by
      have hwo := hwriter
      simp only [writerOK, hw] at hwo
      exact hwo
    exact ⟨hfresh, ⟨v, hwo.2.2, hwo.2.1⟩, hreaders, trivial⟩
  | load i hrd =>
    refine ⟨hfresh, hslot, ?_, hwriter⟩
    intro j ad hr
    have hr' : (c.readers.set i (.done c.slot)).get? j = some (.done ad) := hr
    by_cases hij : i = j
    · have hlt : i < c.readers.length := by
        by_contra hge
        rw [List.get?_eq_none.mpr (by omega)] at hrd
        exact Option.noConfusion hrd
      rw [← hij, List.get?_set_eq_of_lt _ hlt] at hr'
      have had : ReaderSt.done c.slot = ReaderSt.done ad := Option.some.inj hr'
      have hsl : c.slot = ad := by injection had
      rw [← hsl]
      exact hslot
    · rw [List.get?_set_ne _ _ hij] at hr'
      exact hreaders j ad hr'

theorem reach_inv {v0 : Payload} {k : Nat} {c : Config} (h : Reach v0 k c) :
    Inv c := by
  induction h with
  | init =>
    refine ⟨?_, ?_, ?_, trivial⟩
    · intro b hb
      have hb' : 1 ≤ b := hb
      show CopyOnWriteModel.upd (fun _ => none) 0 (some (some v0.1, some v0.2)) b
        = none
      rw [CopyOnWriteModel.upd_other _ _ _ _ (show b ≠ 0 by omega)]
    · refine ⟨v0, List.mem_cons_self _ _, ?_⟩
      show CopyOnWriteModel.upd (fun _ => none) 0 (some (some v0.1, some v0.2)) 0
        = some (some v0.1, some v0.2)
      exact CopyOnWriteModel.upd_self _ _ _
    · intro i ad hr
      have hr' : (List.replicate k ReaderSt.start).get? i = some (.done ad) := hr
      have hmem := List.get?_mem hr'
      have heq := List.eq_of_mem_replicate hmem
      exact ReaderSt.noConfusion heq
  | step hr hs ih => exact step_inv hs ih

/-- Claim C3: in every configuration reachable under any interleaving of
concurrent readers and a publishing writer, every handle a reader finished
acquiring is bound to a snapshot that is fully built and whose two fields both
belong to one single published payload — a reader never observes a partially
built snapshot or a mixture of the pre- and post-publish payloads, because the
writer completes the build before the single atomic exchange and never writes
into an address a reader can already see. -/
theorem readers_observe_whole_snapshots (v0 : Payload) (k : Nat) (c : Config)
    (h : Reach v0 k c) (i ad : Nat)
    (hr : c.readers.get? i = some (.done ad)) :
    ∃ p ∈ c.hist, c.store ad = some (some p.1, some p.2) :=
  (reach_inv h).2.2.1 i ad hr

theorem readers_observe_whole_snapshots_witness :
    ∃ p ∈ wLoaded.hist, wLoaded.store 0 = some (some p.1, some p.2) :=
  readers_observe_whole_snapshots (3, 4) 1 wLoaded
    (Reach.step Reach.init (Step.load wInit 0 rfl)) 0 0 rfl

end PublishModel
